/-
Verification of the aggregation / classification / ranking core of the
Kodi-addon discovery pipeline.

Shallow embedding of:
  scripts/processors/aggregator.py  (aggregate_data, _deduplicate_repos)
  scripts/processors/ranker.py      (classify_and_rank, _has_growth_signals,
                                     _rank_tier, _calculate_score, _log_scale)
  scripts/config.py                 (tier thresholds, weight tables,
                                     growth thresholds)

Modelling conventions:
  * A Python repository dict becomes the structure `Repo`; a key that may be
    absent from the dict becomes an `Option` field.  `repo.get(k, 0)` becomes
    `Option.getD _ 0`; a raw subscript `repo[k]` becomes a pattern match whose
    `none` branch produces `Except.error` (Python KeyError aborts the call).
  * Integer-valued metrics are `Int`; `star_velocity_30d` (a Python float)
    is `ℚ`; scores use `ℝ` because `_log_scale` divides natural logarithms.
    Python floats are idealised as exact real arithmetic.
  * Python's stable `sorted(..., key=score, reverse=True)` is embedded as a
    stable descending insertion sort (`sortDesc`): an element is placed after
    every earlier element whose key is ≥ its own, which is exactly the
    stable-descending specification of `sorted`.
  * The social-signal dictionaries become functions `String → Option _`
    (a finite dict is such a function; `url in d` is `d url ≠ none`).
  * The log call inside `_deduplicate_repos` interpolates
    `best_repo['platform']`, a raw subscript, so the multi-member branch can
    also raise KeyError on a missing `platform`; the model keeps that access.
-/
import Mathlib

/-! ### Configuration constants (scripts/config.py) -/

/-- Constant `TIER_AGE_THRESHOLDS['new']`. -/
def TIER_AGE_NEW : Int := 90

/-- Constant `TIER_AGE_THRESHOLDS['rising']`. -/
def TIER_AGE_RISING : Int := 365

/-- Constant `GROWTH_THRESHOLDS['star_velocity_per_month']`. -/
def STAR_VELOCITY_THRESHOLD : ℚ := 10

/-! ### Data model -/

/-- A repository record: one Python dict flowing through the pipeline.
Fields that a record may lack are `Option`; `none` means the key is absent. -/
structure Repo where
  owner : Option String := none
  name : Option String := none
  repo_url : Option String := none
  platform : Option String := none
  stars : Option Int := none
  age_days : Option Int := none
  star_velocity_30d : Option ℚ := none
  recent_mentions_30d : Option Int := none
  web_mentions : Option Int := none
  recent_commits_count : Option Int := none
  reddit_mentions : Option Int := none
  reddit_upvotes : Option Int := none
  tier : Option String := none
  composite_score : Option ℝ := none
  rank_in_tier : Option Nat := none

/-- One entry of the Reddit social-signal map (inner fields read via `.get`). -/
structure RedditEntry where
  reddit_mentions : Option Int := none
  reddit_upvotes : Option Int := none
  recent_mentions_30d : Option Int := none

/-- One entry of the RSS social-signal map. -/
structure RssEntry where
  web_mentions : Option Int := none

/-- A per-tier weight table.  A `none` field is a key absent from the Python
dict, so `'factor' in weights` is `isSome`. -/
structure Weights where
  stars : Option ℝ := none
  recent_activity : Option ℝ := none
  social_signals : Option ℝ := none
  growth_rate : Option ℝ := none

/-- Table `ESTABLISHED_WEIGHTS` from scripts/config.py. -/
def ESTABLISHED_WEIGHTS : Weights :=
  { stars := some 0.6, recent_activity := some 0.2, social_signals := some 0.2 }

/-- Table `RISING_WEIGHTS` from scripts/config.py. -/
def RISING_WEIGHTS : Weights :=
  { growth_rate := some 0.4, stars := some 0.3,
    recent_activity := some 0.2, social_signals := some 0.1 }

/-- Table `NEW_WEIGHTS` from scripts/config.py. -/
def NEW_WEIGHTS : Weights :=
  { recent_activity := some 0.5, stars := some 0.3, social_signals := some 0.2 }

/-! ### Concrete records used at evaluation points -/

/-- A record with every field absent. -/
def rEmpty : Repo := {}

/-- A 10-day-old record. -/
def rNew : Repo :=
  { owner := some "a", name := some "x", repo_url := some "u1",
    platform := some "github", stars := some 100, age_days := some 10 }

/-- A 200-day-old record with one recent social mention (a growth signal). -/
def rRising : Repo :=
  { owner := some "b", name := some "y", repo_url := some "u2",
    platform := some "github", stars := some 50, age_days := some 200,
    recent_mentions_30d := some 1 }

/-- A 400-day-old record. -/
def rEstablished : Repo :=
  { owner := some "c", name := some "z", repo_url := some "u3",
    platform := some "github", stars := some 500, age_days := some 400 }

/-- A 500-star record whose key collides with `rDupB` up to case. -/
def rDupA : Repo :=
  { owner := some "Foo", name := some "Bar", repo_url := some "gh",
    platform := some "github", stars := some 500 }

/-- A 200-star record whose key collides with `rDupA` up to case. -/
def rDupB : Repo :=
  { owner := some "foo", name := some "bar", repo_url := some "gl",
    platform := some "gitlab", stars := some 200 }

/-- A record with no `age_days` key. -/
def rNoAge : Repo :=
  { owner := some "o", name := some "n", repo_url := some "u",
    platform := some "github", stars := some 5 }

/-- A record alone under its dedup key. -/
def rSolo : Repo :=
  { owner := some "solo", name := some "addon", repo_url := some "us",
    platform := some "github", stars := some 42 }

/-- A second record under a distinct dedup key. -/
def rSolo2 : Repo :=
  { owner := some "other", name := some "addon", repo_url := some "uo",
    platform := some "gitlab", stars := some 7 }

/-- Record `rSolo` after aggregation against empty social maps. -/
def rSoloAgg : Repo :=
  { rSolo with reddit_mentions := some 0
               reddit_upvotes := some 0
               recent_mentions_30d := some 0
               web_mentions := some 0 }

/-! ### Generic helpers -/

/-- Sequential effectful map over `Except`: the loop body of a Python `for`
that may raise, stopping at the first error. -/
def mapE (f : α → Except String β) : List α → Except String (List β)
  | [] => .ok []
  | a :: as =>
    match f a with
    | .error e => .error e
    | .ok b =>
      match mapE f as with
      | .error e => .error e
      | .ok bs => .ok (b :: bs)

/-- Python `str.lower()`: character-wise lowercasing.  (Lean's own
`String.toLower` is extensionally the same map but is defined by well-founded
recursion, which concrete proofs cannot evaluate; a structural character map
is the faithful and executable rendering.) -/
def pyLower (s : String) : String := ⟨s.data.map Char.toLower⟩

/-- The dedup key of a record when both parts are present, defaulting absent
parts to `""`; used only to STATE properties (the code itself raises). -/
def keyD (r : Repo) : String :=
  pyLower (r.owner.getD "") ++ "/" ++ pyLower (r.name.getD "")

/-- Star count with the Python `.get('stars', 0)` default. -/
def starsD (r : Repo) : Int := r.stars.getD 0

/-- Composite score with default 0 (always set before the sort reads it). -/
noncomputable def scoreD (r : Repo) : ℝ := r.composite_score.getD 0

/-! ### Aggregator (scripts/processors/aggregator.py) -/

/-- Python `f"{repo['owner'].lower()}/{repo['name'].lower()}"`: raw subscripts, so a
missing `owner` or `name` raises. -/
def dedupKey (r : Repo) : Except String String :=
  match r.owner with
  | none => .error "KeyError: owner"
  | some o =>
    match r.name with
    | none => .error "KeyError: name"
    | some n => .ok (pyLower o ++ "/" ++ pyLower n)

/-- The comparison loop of Python `max(group, key=lambda r: r['stars'])`:
`best` is kept on ties, replaced only by a strictly larger key; a member
without `stars` raises at its key evaluation. -/
def maxByStarsAux (best : Repo) (bs : Int) : List Repo → Except String Repo
  | [] => .ok best
  | r :: rs =>
    match r.stars with
    | none => .error "KeyError: stars"
    | some s => if bs < s then maxByStarsAux r s rs else maxByStarsAux best bs rs

/-- Python `max(group, key=lambda r: r['stars'])`. -/
def maxByStars : List Repo → Except String Repo
  | [] => .error "ValueError: max() arg is an empty sequence"
  | r :: rs =>
    match r.stars with
    | none => .error "KeyError: stars"
    | some s => maxByStarsAux r s rs

/-- The per-group body of `_deduplicate_repos`: a singleton group is kept
as-is; a larger group keeps the first member with the most stars.  The log
f-string then reads `best_repo['platform']` with a raw subscript. -/
def pickBest (grp : List Repo) : Except String Repo :=
  match grp with
  | [] => .error "ValueError: max() arg is an empty sequence"
  | [g] => .ok g
  | g :: gs =>
    match maxByStars (g :: gs) with
    | .error e => .error e
    | .ok best =>
      match best.platform with
      | none => .error "KeyError: platform"
      | some _ => .ok best

/-- Function `_deduplicate_repos`: group by the lower-cased `owner/name` key (groups in
first-occurrence key order, members in input order, as a Python dict of
lists), then keep one member per group via `pickBest`. -/
def _deduplicate_repos (repos : List Repo) : Except String (List Repo) :=
  match mapE dedupKey repos with
  | .error e => .error e
  | .ok ks =>
    mapE (fun k => pickBest (((repos.zip ks).filter (fun p => p.2 == k)).map Prod.fst))
      ks.dedup

/-- The social-signal merge body of `aggregate_data` for one surviving record:
`repo['repo_url']` is a raw subscript; map lookups default every field to 0. -/
def mergeSocial (reddit_data : String → Option RedditEntry)
    (rss_data : String → Option RssEntry) (r : Repo) : Except String Repo :=
  match r.repo_url with
  | none => .error "KeyError: repo_url"
  | some u =>
    let r1 :=
      match reddit_data u with
      | some e =>
        { r with reddit_mentions := some (e.reddit_mentions.getD 0)
                 reddit_upvotes := some (e.reddit_upvotes.getD 0)
                 recent_mentions_30d := some (e.recent_mentions_30d.getD 0) }
      | none =>
        { r with reddit_mentions := some 0
                 reddit_upvotes := some 0
                 recent_mentions_30d := some 0 }
    match rss_data u with
    | some e => .ok { r1 with web_mentions := some (e.web_mentions.getD 0) }
    | none => .ok { r1 with web_mentions := some 0 }

/-- Function `aggregate_data`: concatenate the three platform lists, deduplicate, then
merge social signals into every surviving record. -/
def aggregate_data (github_repos gitlab_repos bitbucket_repos : List Repo)
    (reddit_data : String → Option RedditEntry)
    (rss_data : String → Option RssEntry) : Except String (List Repo) :=
  match _deduplicate_repos (github_repos ++ gitlab_repos ++ bitbucket_repos) with
  | .error e => .error e
  | .ok deduplicated => mapE (mergeSocial reddit_data rss_data) deduplicated

/-! ### Classifier (scripts/processors/ranker.py, classification half) -/

/-- Function `_has_growth_signals`: every field is read with `.get(_, 0)`. -/
def hasGrowthSignals (r : Repo) : Bool :=
  decide (STAR_VELOCITY_THRESHOLD < r.star_velocity_30d.getD 0) ||
  decide (0 < r.recent_mentions_30d.getD 0) ||
  decide (0 < r.web_mentions.getD 0) ||
  decide (10 < r.recent_commits_count.getD 0)

/-- The age rule of `classify_and_rank`, as a function of the record and its
(present) `age_days` value. -/
def ruleTier (r : Repo) (a : Int) : String :=
  if a < TIER_AGE_NEW then "new"
  else if a < TIER_AGE_RISING then
    (if hasGrowthSignals r then "rising" else "established")
  else "established"

/-- The classification loop of `classify_and_rank`: reads `repo['age_days']`
with a raw subscript (KeyError aborts), sets `repo['tier']`, and appends the
record to the matching tier list, preserving input order. -/
def classifyTiers : List Repo → Except String (List Repo × List Repo × List Repo)
  | [] => .ok ([], [], [])
  | r :: rs =>
    match r.age_days with
    | none => .error "KeyError: age_days"
    | some a =>
      match classifyTiers rs with
      | .error e => .error e
      | .ok (E, R, N) =>
        if a < TIER_AGE_NEW then
          .ok (E, R, { r with tier := some "new" } :: N)
        else if a < TIER_AGE_RISING then
          if hasGrowthSignals r then
            .ok (E, { r with tier := some "rising" } :: R, N)
          else
            .ok ({ r with tier := some "established" } :: E, R, N)
        else
          .ok ({ r with tier := some "established" } :: E, R, N)

/-! ### Ranker (scripts/processors/ranker.py, scoring half) -/

/-- Function `_log_scale`: 0 at or below `min_val` (checked first), 1 at or above
`max_val`, otherwise the log ratio clamped to `[0, 1]`. -/
noncomputable def _log_scale (value min_val max_val : ℝ) : ℝ :=
  if value ≤ min_val then 0
  else if max_val ≤ value then 1
  else max 0 (min 1 (Real.log (value - min_val + 1) / Real.log (max_val - min_val + 1)))

/-- One `if 'factor' in weights: score += v * weights['factor']` contribution:
`v * w` when the factor key is present, 0 when absent. -/
noncomputable def wcomp (o : Option ℝ) (v : ℝ) : ℝ :=
  match o with
  | some w => v * w
  | none => 0

/-- Function `_calculate_score`: the sum of the four optional weighted components, in
the code's order (stars, recent activity, social signals, growth rate).
Every metric is read with `.get(_, 0)`. -/
noncomputable def _calculate_score (r : Repo) (weights : Weights) : ℝ :=
  wcomp weights.stars (_log_scale (r.stars.getD 0 : Int) 20 10000) +
  wcomp weights.recent_activity (_log_scale (r.recent_commits_count.getD 0 : Int) 1 100) +
  wcomp weights.social_signals
    (_log_scale (r.reddit_mentions.getD 0 : Int) 0 50 * 0.4 +
     _log_scale (r.reddit_upvotes.getD 0 : Int) 0 500 * 0.4 +
     _log_scale (r.web_mentions.getD 0 : Int) 0 10 * 0.2) +
  wcomp weights.growth_rate
    (_log_scale (r.star_velocity_30d.getD 0 : ℚ) 0 100 * 0.6 +
     _log_scale (r.recent_mentions_30d.getD 0 : Int) 0 20 * 0.4)

/-- The weight-table selection of `_rank_tier` (lines 122-128): an if/elif
chain whose bare `else` hands any other tier name the new-tier weights. -/
def selectWeights (tier_name : String) : Weights :=
  if tier_name = "established" then ESTABLISHED_WEIGHTS
  else if tier_name = "rising" then RISING_WEIGHTS
  else NEW_WEIGHTS

/-- Assignment `repo['composite_score'] = score` for every repo of the tier. -/
noncomputable def setScore (weights : Weights) (r : Repo) : Repo :=
  { r with composite_score := some (_calculate_score r weights) }

/-- Insert into a descending-by-score list, after every element whose score
is ≥ the inserted one (the placement a stable descending sort gives). -/
noncomputable def insertDesc (r : Repo) : List Repo → List Repo
  | [] => [r]
  | x :: xs => if scoreD x ≤ scoreD r then r :: x :: xs else x :: insertDesc r xs

/-- Stable descending sort by `composite_score`: the semantics of
`sorted(repos, key=lambda r: r['composite_score'], reverse=True)`. -/
noncomputable def sortDesc : List Repo → List Repo
  | [] => []
  | a :: l => insertDesc a (sortDesc l)

/-- Assignment `repo['rank_in_tier'] = i + 1` over the sorted list. -/
def assignRanks (k : Nat) : List Repo → List Repo
  | [] => []
  | r :: rs => { r with rank_in_tier := some k } :: assignRanks (k + 1) rs

/-- Function `_rank_tier`: empty tiers short-circuit to `[]`; otherwise score every
record with the tier's weight table, stable-sort descending by score, and
assign 1-based ranks. -/
noncomputable def _rank_tier (repos : List Repo) (tier_name : String) : List Repo :=
  match repos with
  | [] => []
  | _ :: _ =>
    assignRanks 1 (sortDesc (repos.map (setScore (selectWeights tier_name))))

/-- Function `classify_and_rank`: classify into tiers, then rank each tier with its
own name. -/
noncomputable def classify_and_rank (repositories : List Repo) :
    Except String (List Repo × List Repo × List Repo) :=
  match classifyTiers repositories with
  | .error e => .error e
  | .ok (established, rising, new) =>
    .ok (_rank_tier established "established",
         _rank_tier rising "rising",
         _rank_tier new "new")

/-! ### Statement-level vocabulary -/

/-- Predicate: `m` is the first star-maximal member of `g`: it is a member, no member
has more stars, and every member encountered before it has strictly fewer. -/
def IsFirstMax (g : List Repo) (m : Repo) : Prop :=
  (∀ x ∈ g, starsD x ≤ starsD m) ∧
  ∃ pre post, g = pre ++ m :: post ∧ ∀ x ∈ pre, starsD x < starsD m

/-- Erase the rank annotation (to compare sort output with sort input). -/
def stripRank (r : Repo) : Repo := { r with rank_in_tier := none }

/-- The sum of the weights present in a table. -/
noncomputable def weightSum (w : Weights) : ℝ :=
  w.stars.getD 0 + w.recent_activity.getD 0 + w.social_signals.getD 0 + w.growth_rate.getD 0

/-! ### Helper lemmas: `mapE` -/

lemma mapE_congr_ok {α β : Type} {f : α → Except String β} {g : α → β} :
    ∀ {l : List α}, (∀ a ∈ l, f a = .ok (g a)) → mapE f l = .ok (l.map g) := by
  intro l
  induction l with
  | nil => intro _; rfl
  | cons a as ih =>
    intro h
    have ha := h a (List.mem_cons_self a as)
    have hrest := ih (fun x hx => h x (List.mem_cons_of_mem _ hx))
    simp [mapE, ha, hrest]

lemma mapE_ok_forall₂ {α β : Type} {f : α → Except String β} :
    ∀ {l : List α} {bs : List β}, mapE f l = .ok bs →
      List.Forall₂ (fun a b => f a = .ok b) l bs := by
  intro l
  induction l with
  | nil =>
    intro bs h
    simp only [mapE] at h
    injection h with h'
    subst h'
    exact .nil
  | cons a as ih =>
    intro bs h
    simp only [mapE] at h
    cases hfa : f a with
    | error e => rw [hfa] at h; cases h
    | ok b =>
      rw [hfa] at h
      cases hrec : mapE f as with
      | error e => rw [hrec] at h; cases h
      | ok bs' =>
        rw [hrec] at h
        injection h with h'
        subst h'
        exact .cons hfa (ih hrec)

lemma mapE_ok_of_forall {α β : Type} {f : α → Except String β} {P : α → β → Prop} :
    ∀ {l : List α}, (∀ a ∈ l, ∃ b, f a = .ok b ∧ P a b) →
      ∃ bs, mapE f l = .ok bs ∧ List.Forall₂ P l bs := by
  intro l
  induction l with
  | nil => intro _; exact ⟨[], rfl, .nil⟩
  | cons a as ih =>
    intro h
    obtain ⟨b, hb, hPb⟩ := h a (List.mem_cons_self a as)
    obtain ⟨bs, hbs, hPbs⟩ := ih (fun x hx => h x (List.mem_cons_of_mem _ hx))
    exact ⟨b :: bs, by simp [mapE, hb, hbs], .cons hPb hPbs⟩

lemma mapE_ok_mem {α β : Type} {f : α → Except String β} :
    ∀ {l : List α} {bs : List β}, mapE f l = .ok bs →
      ∀ {x : β}, x ∈ bs → ∃ a ∈ l, f a = .ok x := by
  intro l
  induction l with
  | nil =>
    intro bs h x hx
    simp only [mapE] at h
    injection h with h'
    subst h'
    cases hx
  | cons a as ih =>
    intro bs h x hx
    simp only [mapE] at h
    cases hfa : f a with
    | error e => rw [hfa] at h; cases h
    | ok b =>
      rw [hfa] at h
      cases hrec : mapE f as with
      | error e => rw [hrec] at h; cases h
      | ok bs' =>
        rw [hrec] at h
        injection h with h'
        subst h'
        rcases List.mem_cons.mp hx with rfl | hx'
        · exact ⟨a, List.mem_cons_self a as, hfa⟩
        · obtain ⟨a', ha', hfa'⟩ := ih hrec hx'
          exact ⟨a', List.mem_cons_of_mem _ ha', hfa'⟩

/-! ### Helper lemmas: deduplication -/

lemma dedupKey_eq_keyD {r : Repo} (ho : r.owner.isSome) (hn : r.name.isSome) :
    dedupKey r = .ok (keyD r) := by
  obtain ⟨o, ho'⟩ := Option.isSome_iff_exists.mp ho
  obtain ⟨n, hn'⟩ := Option.isSome_iff_exists.mp hn
  simp [dedupKey, keyD, ho', hn']

lemma zip_filter_map_fst (repos : List Repo) (k : String) :
    (((repos.zip (repos.map keyD)).filter (fun p => p.2 == k)).map Prod.fst)
      = repos.filter (fun r => keyD r == k) := by
  induction repos with
  | nil => rfl
  | cons r rs ih =>
    simp only [List.map_cons, List.zip_cons_cons, List.filter_cons]
    cases hb : (keyD r == k) <;> simp [hb, ih]

lemma starsD_of_some {r : Repo} {s : Int} (h : r.stars = some s) : starsD r = s := by
  simp [starsD, h]

lemma isFirstMax_singleton (r : Repo) : IsFirstMax [r] r := by
  refine ⟨?_, [], [], rfl, ?_⟩ <;> simp

lemma IsFirstMax.mem {g : List Repo} {m : Repo} (h : IsFirstMax g m) : m ∈ g := by
  obtain ⟨-, pre, post, heq, -⟩ := h
  subst heq
  simp

lemma maxByStarsAux_spec :
    ∀ (l : List Repo) (best : Repo) (bs : Int), best.stars = some bs →
      (∀ x ∈ l, x.stars.isSome) →
      ∃ m, maxByStarsAux best bs l = .ok m ∧ IsFirstMax (best :: l) m := by
  intro l
  induction l with
  | nil =>
    intro best bs hb _
    exact ⟨best, rfl, isFirstMax_singleton best⟩
  | cons r rs ih =>
    intro best bs hb hall
    obtain ⟨s, hs⟩ := Option.isSome_iff_exists.mp (hall r (List.mem_cons_self r rs))
    have hbD : starsD best = bs := starsD_of_some hb
    have hrD : starsD r = s := starsD_of_some hs
    by_cases hlt : bs < s
    · obtain ⟨m, hm, hle, pre, post, heq, hpre⟩ :=
        ih r s hs (fun x hx => hall x (List.mem_cons_of_mem _ hx))
      have hrm : starsD r ≤ starsD m := hle r (List.mem_cons_self r rs)
      have hbm : starsD best < starsD m := by
        rw [hbD]; rw [hrD] at hrm; exact lt_of_lt_of_le hlt hrm
      refine ⟨m, by simp [maxByStarsAux, hs, hlt, hm], ?_, best :: pre, post, ?_, ?_⟩
      · intro x hx
        rcases List.mem_cons.mp hx with rfl | hx'
        · exact le_of_lt hbm
        · exact hle x hx'
      · rw [List.cons_append, heq]
      · intro x hx
        rcases List.mem_cons.mp hx with rfl | hx'
        · exact hbm
        · exact hpre x hx'
    · have hsb : s ≤ bs := not_lt.mp hlt
      obtain ⟨m, hm, hle, pre, post, heq, hpre⟩ :=
        ih best bs hb (fun x hx => hall x (List.mem_cons_of_mem _ hx))
      have hbestm : starsD best ≤ starsD m := hle best (List.mem_cons_self best rs)
      have hrm : starsD r ≤ starsD m := by
        rw [hrD]; rw [hbD] at hbestm; exact le_trans hsb hbestm
      have hstep : maxByStarsAux best bs (r :: rs) = .ok m := by
        simp [maxByStarsAux, hs, hlt, hm]
      have halle : ∀ x ∈ best :: r :: rs, starsD x ≤ starsD m := by
        intro x hx
        rcases List.mem_cons.mp hx with rfl | hx'
        · exact hbestm
        · rcases List.mem_cons.mp hx' with rfl | hx''
          · exact hrm
          · exact hle x (List.mem_cons_of_mem _ hx'')
      cases pre with
      | nil =>
        simp only [List.nil_append] at heq
        obtain ⟨h1, -⟩ := List.cons_eq_cons.mp heq
        have hmb : m = best := h1.symm
        refine ⟨m, hstep, halle, [], r :: rs, by simp [hmb], by simp⟩
      | cons b pre' =>
        simp only [List.cons_append] at heq
        obtain ⟨hb1, h2⟩ := List.cons_eq_cons.mp heq
        have hbm : starsD best < starsD m := by
          rw [hb1]; exact hpre b (List.mem_cons_self b pre')
        refine ⟨m, hstep, halle, best :: r :: pre', post, ?_, ?_⟩
        · rw [h2]; rfl
        · intro x hx
          rcases List.mem_cons.mp hx with rfl | hx'
          · exact hbm
          · rcases List.mem_cons.mp hx' with rfl | hx''
            · rw [hrD]; rw [hbD] at hbm; exact lt_of_le_of_lt hsb hbm
            · exact hpre x (List.mem_cons_of_mem _ hx'')

lemma maxByStars_spec {g : List Repo} (hne : g ≠ [])
    (hall : ∀ x ∈ g, x.stars.isSome) :
    ∃ m, maxByStars g = .ok m ∧ IsFirstMax g m := by
  cases g with
  | nil => exact absurd rfl hne
  | cons r rs =>
    obtain ⟨s, hs⟩ := Option.isSome_iff_exists.mp (hall r (List.mem_cons_self r rs))
    obtain ⟨m, hm, hfm⟩ :=
      maxByStarsAux_spec rs r s hs (fun x hx => hall x (List.mem_cons_of_mem _ hx))
    exact ⟨m, by simp [maxByStars, hs, hm], hfm⟩

lemma pickBest_spec {grp : List Repo} (hne : grp ≠ [])
    (hstars : ∀ x ∈ grp, x.stars.isSome) (hplat : ∀ x ∈ grp, x.platform.isSome) :
    ∃ m, pickBest grp = .ok m ∧ IsFirstMax grp m := by
  match grp with
  | [] => exact absurd rfl hne
  | [g] => exact ⟨g, rfl, isFirstMax_singleton g⟩
  | g :: g2 :: gs =>
    obtain ⟨m, hm, hfm⟩ := maxByStars_spec (by simp) hstars
    obtain ⟨p, hp⟩ := Option.isSome_iff_exists.mp (hplat m hfm.mem)
    exact ⟨m, by simp [pickBest, hm, hp], hfm⟩

/-! ### Helper lemmas: classification -/

lemma classifyTiers_spec :
    ∀ {repos E R N : List Repo}, classifyTiers repos = .ok (E, R, N) →
      (∀ x ∈ E, ∃ r ∈ repos, ∃ a : Int, r.age_days = some a ∧
        x = { r with tier := some "established" } ∧ ruleTier r a = "established") ∧
      (∀ x ∈ R, ∃ r ∈ repos, ∃ a : Int, r.age_days = some a ∧
        x = { r with tier := some "rising" } ∧ ruleTier r a = "rising") ∧
      (∀ x ∈ N, ∃ r ∈ repos, ∃ a : Int, r.age_days = some a ∧
        x = { r with tier := some "new" } ∧ ruleTier r a = "new") := by
  intro repos
  induction repos with
  | nil =>
    intro E R N h
    simp only [classifyTiers] at h
    injection h with h'
    simp only [Prod.mk.injEq] at h'
    obtain ⟨rfl, rfl, rfl⟩ := h'
    exact ⟨by simp, by simp, by simp⟩
  | cons r rs ih =>
    intro E R N h
    simp only [classifyTiers] at h
    cases hage : r.age_days with
    | none => rw [hage] at h; cases h
    | some a =>
      rw [hage] at h
      cases hrec : classifyTiers rs with
      | error e => rw [hrec] at h; cases h
      | ok t =>
        obtain ⟨E', R', N'⟩ := t
        rw [hrec] at h
        dsimp only at h
        obtain ⟨hE, hR, hN⟩ := ih hrec
        by_cases h90 : a < TIER_AGE_NEW
        · rw [if_pos h90] at h
          injection h with h'
          simp only [Prod.mk.injEq] at h'
          obtain ⟨rfl, rfl, rfl⟩ := h'
          refine ⟨?_, ?_, ?_⟩
          · intro x hx
            obtain ⟨r', hr', hrest⟩ := hE x hx
            exact ⟨r', List.mem_cons_of_mem _ hr', hrest⟩
          · intro x hx
            obtain ⟨r', hr', hrest⟩ := hR x hx
            exact ⟨r', List.mem_cons_of_mem _ hr', hrest⟩
          · intro x hx
            rcases List.mem_cons.mp hx with rfl | hx'
            · exact ⟨r, List.mem_cons_self r rs, a, hage, by rw [hage], by simp [ruleTier, h90]⟩
            · obtain ⟨r', hr', hrest⟩ := hN x hx'
              exact ⟨r', List.mem_cons_of_mem _ hr', hrest⟩
        · rw [if_neg h90] at h
          by_cases h365 : a < TIER_AGE_RISING
          · rw [if_pos h365] at h
            by_cases hg : hasGrowthSignals r
            · rw [if_pos hg] at h
              injection h with h'
              simp only [Prod.mk.injEq] at h'
              obtain ⟨rfl, rfl, rfl⟩ := h'
              refine ⟨?_, ?_, ?_⟩
              · intro x hx
                obtain ⟨r', hr', hrest⟩ := hE x hx
                exact ⟨r', List.mem_cons_of_mem _ hr', hrest⟩
              · intro x hx
                rcases List.mem_cons.mp hx with rfl | hx'
                · exact ⟨r, List.mem_cons_self r rs, a, hage, by rw [hage],
                    by simp [ruleTier, h90, h365, hg]⟩
                · obtain ⟨r', hr', hrest⟩ := hR x hx'
                  exact ⟨r', List.mem_cons_of_mem _ hr', hrest⟩
              · intro x hx
                obtain ⟨r', hr', hrest⟩ := hN x hx
                exact ⟨r', List.mem_cons_of_mem _ hr', hrest⟩
            · rw [if_neg hg] at h
              injection h with h'
              simp only [Prod.mk.injEq] at h'
              obtain ⟨rfl, rfl, rfl⟩ := h'
              refine ⟨?_, ?_, ?_⟩
              · intro x hx
                rcases List.mem_cons.mp hx with rfl | hx'
                · refine ⟨r, List.mem_cons_self r rs, a, hage, by rw [hage], ?_⟩
                  have hgf : hasGrowthSignals r = false := by
                    revert hg; cases hasGrowthSignals r <;> simp
                  simp [ruleTier, h90, h365, hgf]
                · obtain ⟨r', hr', hrest⟩ := hE x hx'
                  exact ⟨r', List.mem_cons_of_mem _ hr', hrest⟩
              · intro x hx
                obtain ⟨r', hr', hrest⟩ := hR x hx
                exact ⟨r', List.mem_cons_of_mem _ hr', hrest⟩
              · intro x hx
                obtain ⟨r', hr', hrest⟩ := hN x hx
                exact ⟨r', List.mem_cons_of_mem _ hr', hrest⟩
          · rw [if_neg h365] at h
            injection h with h'
            simp only [Prod.mk.injEq] at h'
            obtain ⟨rfl, rfl, rfl⟩ := h'
            refine ⟨?_, ?_, ?_⟩
            · intro x hx
              rcases List.mem_cons.mp hx with rfl | hx'
              · exact ⟨r, List.mem_cons_self r rs, a, hage, by rw [hage],
                  by simp [ruleTier, h90, h365]⟩
              · obtain ⟨r', hr', hrest⟩ := hE x hx'
                exact ⟨r', List.mem_cons_of_mem _ hr', hrest⟩
            · intro x hx
              obtain ⟨r', hr', hrest⟩ := hR x hx
              exact ⟨r', List.mem_cons_of_mem _ hr', hrest⟩
            · intro x hx
              obtain ⟨r', hr', hrest⟩ := hN x hx
              exact ⟨r', List.mem_cons_of_mem _ hr', hrest⟩

lemma classifyTiers_ok_of_ages :
    ∀ {repos : List Repo}, (∀ r ∈ repos, r.age_days.isSome) →
      ∃ E R N, classifyTiers repos = .ok (E, R, N) ∧
        E.length + R.length + N.length = repos.length := by
  intro repos
  induction repos with
  | nil => intro _; exact ⟨[], [], [], rfl, rfl⟩
  | cons r rs ih =>
    intro h
    obtain ⟨a, ha⟩ := Option.isSome_iff_exists.mp (h r (List.mem_cons_self r rs))
    obtain ⟨E, R, N, hok, hlen⟩ := ih (fun x hx => h x (List.mem_cons_of_mem _ hx))
    by_cases h90 : a < TIER_AGE_NEW
    · refine ⟨E, R, { r with tier := some "new" } :: N, ?_, ?_⟩
      · simp [classifyTiers, ha, hok, h90]
      · simp only [List.length_cons]; omega
    · by_cases h365 : a < TIER_AGE_RISING
      · by_cases hg : hasGrowthSignals r
        · refine ⟨E, { r with tier := some "rising" } :: R, N, ?_, ?_⟩
          · simp [classifyTiers, ha, hok, h90, h365, hg]
          · simp only [List.length_cons]; omega
        · refine ⟨{ r with tier := some "established" } :: E, R, N, ?_, ?_⟩
          · simp [classifyTiers, ha, hok, h90, h365, hg]
          · simp only [List.length_cons]; omega
      · refine ⟨{ r with tier := some "established" } :: E, R, N, ?_, ?_⟩
        · simp [classifyTiers, ha, hok, h90, h365]
        · simp only [List.length_cons]; omega

/-! ### Helper lemmas: sorting and ranking -/

lemma insertDesc_length (r : Repo) (l : List Repo) :
    (insertDesc r l).length = l.length + 1 := by
  induction l with
  | nil => rfl
  | cons x xs ih =>
    by_cases h : scoreD x ≤ scoreD r <;> simp [insertDesc, h, ih]

lemma insertDesc_mem {y r : Repo} {l : List Repo} :
    y ∈ insertDesc r l ↔ y = r ∨ y ∈ l := by
  induction l with
  | nil => simp [insertDesc]
  | cons x xs ih =>
    by_cases h : scoreD x ≤ scoreD r
    · simp [insertDesc, h, or_comm, or_assoc, or_left_comm]
    · simp only [insertDesc, if_neg h, List.mem_cons, ih]
      tauto

lemma sortDesc_length (l : List Repo) : (sortDesc l).length = l.length := by
  induction l with
  | nil => rfl
  | cons a l ih => simp [sortDesc, insertDesc_length, ih]

lemma sortDesc_mem {y : Repo} {l : List Repo} : y ∈ sortDesc l ↔ y ∈ l := by
  induction l with
  | nil => simp [sortDesc]
  | cons a l ih => simp [sortDesc, insertDesc_mem, ih]

lemma insertDesc_pairwise {r : Repo} {l : List Repo}
    (h : l.Pairwise (fun a b => scoreD b ≤ scoreD a)) :
    (insertDesc r l).Pairwise (fun a b => scoreD b ≤ scoreD a) := by
  induction l with
  | nil => simp [insertDesc]
  | cons x xs ih =>
    obtain ⟨hx, hxs⟩ := List.pairwise_cons.mp h
    by_cases hle : scoreD x ≤ scoreD r
    · rw [insertDesc, if_pos hle]
      refine List.pairwise_cons.mpr ⟨?_, h⟩
      intro y hy
      rcases List.mem_cons.mp hy with rfl | hy'
      · exact hle
      · exact le_trans (hx y hy') hle
    · rw [insertDesc, if_neg hle]
      refine List.pairwise_cons.mpr ⟨?_, ih hxs⟩
      intro y hy
      rcases insertDesc_mem.mp hy with rfl | hy'
      · exact le_of_lt (not_le.mp hle)
      · exact hx y hy'

lemma sortDesc_pairwise (l : List Repo) :
    (sortDesc l).Pairwise (fun a b => scoreD b ≤ scoreD a) := by
  induction l with
  | nil => simp [sortDesc]
  | cons a l ih => exact insertDesc_pairwise ih

lemma filter_insertDesc (s : ℝ) (r : Repo) (l : List Repo) :
    (insertDesc r l).filter (fun x => decide (scoreD x = s)) =
      if scoreD r = s then r :: l.filter (fun x => decide (scoreD x = s))
      else l.filter (fun x => decide (scoreD x = s)) := by
  induction l with
  | nil =>
    by_cases h : scoreD r = s <;> simp [insertDesc, h]
  | cons x xs ih =>
    by_cases hle : scoreD x ≤ scoreD r
    · rw [insertDesc, if_pos hle]
      by_cases hr : scoreD r = s <;> simp [List.filter_cons, hr]
    · have hlt : scoreD r < scoreD x := not_le.mp hle
      rw [insertDesc, if_neg hle]
      by_cases hx : scoreD x = s
      · have hr : ¬(scoreD r = s) := by rw [← hx]; exact ne_of_lt hlt
        simp [List.filter_cons, hx, hr, ih]
      · by_cases hr : scoreD r = s <;> simp [List.filter_cons, hx, hr, ih]

lemma filter_sortDesc (s : ℝ) (l : List Repo) :
    (sortDesc l).filter (fun x => decide (scoreD x = s)) =
      l.filter (fun x => decide (scoreD x = s)) := by
  induction l with
  | nil => rfl
  | cons a l ih =>
    by_cases ha : scoreD a = s <;>
      simp [sortDesc, filter_insertDesc, ha, List.filter_cons, ih]

lemma assignRanks_length (k : Nat) (l : List Repo) :
    (assignRanks k l).length = l.length := by
  induction l generalizing k with
  | nil => rfl
  | cons r rs ih => simp [assignRanks, ih]

lemma assignRanks_map_rank (k : Nat) (l : List Repo) :
    (assignRanks k l).map Repo.rank_in_tier = (List.range' k l.length).map some := by
  induction l generalizing k with
  | nil => rfl
  | cons r rs ih => simp [assignRanks, List.range', ih]

lemma assignRanks_map_score (k : Nat) (l : List Repo) :
    (assignRanks k l).map scoreD = l.map scoreD := by
  induction l generalizing k with
  | nil => rfl
  | cons r rs ih => simp [assignRanks, ih, scoreD]

lemma assignRanks_mem {x : Repo} {l : List Repo} {k : Nat} :
    x ∈ assignRanks k l → ∃ y ∈ l, ∃ i, x = { y with rank_in_tier := some i } := by
  induction l generalizing k with
  | nil => intro h; cases h
  | cons r rs ih =>
    intro h
    rcases List.mem_cons.mp h with rfl | h'
    · exact ⟨r, List.mem_cons_self r rs, k, rfl⟩
    · obtain ⟨y, hy, i, hxi⟩ := ih h'
      exact ⟨y, List.mem_cons_of_mem _ hy, i, hxi⟩

lemma assignRanks_filter_strip (p : Repo → Bool)
    (hp : ∀ y i, p { y with rank_in_tier := some i } = p y) :
    ∀ (k : Nat) (l : List Repo),
      ((assignRanks k l).filter p).map stripRank = (l.filter p).map stripRank := by
  intro k l
  induction l generalizing k with
  | nil => rfl
  | cons r rs ih =>
    cases hpr : p r with
    | false =>
      have hpr' : p { r with rank_in_tier := some k } = false := by rw [hp r k, hpr]
      simp only [assignRanks, List.filter_cons, hpr, hpr']
      simpa using ih (k + 1)
    | true =>
      have hpr' : p { r with rank_in_tier := some k } = true := by rw [hp r k, hpr]
      simp only [assignRanks, List.filter_cons, hpr, hpr', if_true, List.map_cons]
      rw [ih (k + 1)]
      rfl

lemma rank_tier_eq (repos : List Repo) (t : String) :
    _rank_tier repos t =
      assignRanks 1 (sortDesc (repos.map (setScore (selectWeights t)))) := by
  cases repos <;> rfl

lemma rank_tier_length (repos : List Repo) (t : String) :
    (_rank_tier repos t).length = repos.length := by
  rw [rank_tier_eq, assignRanks_length, sortDesc_length, List.length_map]

lemma rank_tier_mem_src {x : Repo} {l : List Repo} {t : String} :
    x ∈ _rank_tier l t → ∃ r ∈ l, ∃ i : Nat,
      x = { r with composite_score := some (_calculate_score r (selectWeights t)),
                   rank_in_tier := some i } := by
  rw [rank_tier_eq]
  intro hx
  obtain ⟨y, hy, i, hxi⟩ := assignRanks_mem hx
  obtain ⟨r, hr, hyr⟩ := List.mem_map.mp (sortDesc_mem.mp hy)
  refine ⟨r, hr, i, ?_⟩
  rw [hxi, ← hyr]
  rfl

/-! ### Helper lemmas: `_log_scale` and score bounds -/

lemma log_scale_nonneg_le_one (v mn mx : ℝ) :
    0 ≤ _log_scale v mn mx ∧ _log_scale v mn mx ≤ 1 := by
  unfold _log_scale
  split_ifs with h1 h2
  · norm_num
  · norm_num
  · exact ⟨le_max_left 0 _, max_le (by norm_num) (min_le_left 1 _)⟩

lemma log_scale_interior (v mn mx : ℝ) (h1 : mn < v) (h2 : v < mx) :
    _log_scale v mn mx = Real.log (v - mn + 1) / Real.log (mx - mn + 1) ∧
    0 < _log_scale v mn mx ∧ _log_scale v mn mx < 1 := by
  have hnum : 0 < Real.log (v - mn + 1) := Real.log_pos (by linarith)
  have hlt : Real.log (v - mn + 1) < Real.log (mx - mn + 1) :=
    Real.log_lt_log (by linarith) (by linarith)
  have hden : 0 < Real.log (mx - mn + 1) := lt_trans hnum hlt
  have hratio_pos : 0 < Real.log (v - mn + 1) / Real.log (mx - mn + 1) :=
    div_pos hnum hden
  have hratio_lt : Real.log (v - mn + 1) / Real.log (mx - mn + 1) < 1 :=
    (div_lt_one hden).mpr hlt
  have heq : _log_scale v mn mx = Real.log (v - mn + 1) / Real.log (mx - mn + 1) := by
    rw [_log_scale, if_neg (not_le.mpr h1), if_neg (not_le.mpr h2),
      min_eq_right (le_of_lt hratio_lt), max_eq_right (le_of_lt hratio_pos)]
  exact ⟨heq, by rw [heq]; exact hratio_pos, by rw [heq]; exact hratio_lt⟩

lemma log_scale_strict_mono (v w mn mx : ℝ) (h1 : mn < v) (h2 : v < w) (h3 : w < mx) :
    _log_scale v mn mx < _log_scale w mn mx := by
  obtain ⟨hv, -, -⟩ := log_scale_interior v mn mx h1 (lt_trans h2 h3)
  obtain ⟨hw, -, -⟩ := log_scale_interior w mn mx (lt_trans h1 h2) h3
  have hnum : 0 < Real.log (v - mn + 1) := Real.log_pos (by linarith)
  have hden : 0 < Real.log (mx - mn + 1) :=
    lt_trans hnum (Real.log_lt_log (by linarith) (by linarith))
  rw [hv, hw]
  exact (div_lt_div_iff_of_pos_right hden).mpr (Real.log_lt_log (by linarith) (by linarith))

lemma wcomp_nonneg_le (o : Option ℝ) (v : ℝ) (h0 : 0 ≤ v) (h1 : v ≤ 1)
    (hw : 0 ≤ o.getD 0) : 0 ≤ wcomp o v ∧ wcomp o v ≤ o.getD 0 := by
  cases o with
  | none => simp [wcomp]
  | some w =>
    simp only [wcomp, Option.getD_some] at *
    exact ⟨mul_nonneg h0 hw, mul_le_of_le_one_left hw h1⟩

lemma calculate_score_bounds (r : Repo) (w : Weights)
    (h1 : 0 ≤ w.stars.getD 0) (h2 : 0 ≤ w.recent_activity.getD 0)
    (h3 : 0 ≤ w.social_signals.getD 0) (h4 : 0 ≤ w.growth_rate.getD 0) :
    0 ≤ _calculate_score r w ∧ _calculate_score r w ≤ weightSum w := by
  obtain ⟨s0, s1⟩ := log_scale_nonneg_le_one ((r.stars.getD 0 : Int) : ℝ) 20 10000
  obtain ⟨a0, a1⟩ := log_scale_nonneg_le_one ((r.recent_commits_count.getD 0 : Int) : ℝ) 1 100
  obtain ⟨m0, m1⟩ := log_scale_nonneg_le_one ((r.reddit_mentions.getD 0 : Int) : ℝ) 0 50
  obtain ⟨u0, u1⟩ := log_scale_nonneg_le_one ((r.reddit_upvotes.getD 0 : Int) : ℝ) 0 500
  obtain ⟨w0, w1⟩ := log_scale_nonneg_le_one ((r.web_mentions.getD 0 : Int) : ℝ) 0 10
  obtain ⟨v0, v1⟩ := log_scale_nonneg_le_one ((r.star_velocity_30d.getD 0 : ℚ) : ℝ) 0 100
  obtain ⟨n0, n1⟩ := log_scale_nonneg_le_one ((r.recent_mentions_30d.getD 0 : Int) : ℝ) 0 20
  obtain ⟨c1, c1'⟩ := wcomp_nonneg_le w.stars _ s0 s1 h1
  obtain ⟨c2, c2'⟩ := wcomp_nonneg_le w.recent_activity _ a0 a1 h2
  obtain ⟨c3, c3'⟩ := wcomp_nonneg_le w.social_signals
    (_log_scale ((r.reddit_mentions.getD 0 : Int) : ℝ) 0 50 * 0.4 +
     _log_scale ((r.reddit_upvotes.getD 0 : Int) : ℝ) 0 500 * 0.4 +
     _log_scale ((r.web_mentions.getD 0 : Int) : ℝ) 0 10 * 0.2)
    (by linarith) (by linarith) h3
  obtain ⟨c4, c4'⟩ := wcomp_nonneg_le w.growth_rate
    (_log_scale ((r.star_velocity_30d.getD 0 : ℚ) : ℝ) 0 100 * 0.6 +
     _log_scale ((r.recent_mentions_30d.getD 0 : Int) : ℝ) 0 20 * 0.4)
    (by linarith) (by linarith) h4
  unfold _calculate_score weightSum
  constructor <;> linarith

/-! ### Claim theorems -/

/-- C4: `_log_scale(value, minVal, maxVal)` returns 0 when `value ≤ minVal`
(this branch is checked first), returns 1 when `value ≥ maxVal`, and in the
interior returns the clamped log ratio, which is strictly between 0 and 1 and
strictly increasing in the value; in particular `_log_scale 20 20 10000 = 0`
and `_log_scale 10000 20 10000 = 1`. -/
theorem log_scale_spec_C4 :
    (∀ v mn mx : ℝ, v ≤ mn → _log_scale v mn mx = 0) ∧
    (∀ v mn mx : ℝ, mn < v → mx ≤ v → _log_scale v mn mx = 1) ∧
    _log_scale 20 20 10000 = 0 ∧
    _log_scale 10000 20 10000 = 1 ∧
    (∀ v mn mx : ℝ, mn < v → v < mx →
      _log_scale v mn mx =
        max 0 (min 1 (Real.log (v - mn + 1) / Real.log (mx - mn + 1))) ∧
      0 < _log_scale v mn mx ∧ _log_scale v mn mx < 1) ∧
    (∀ v w mn mx : ℝ, mn < v → v < w → w < mx →
      _log_scale v mn mx < _log_scale w mn mx) := by
  refine ⟨?_, ?_, ?_, ?_, ?_, ?_⟩
  · intro v mn mx h
    rw [_log_scale, if_pos h]
  · intro v mn mx h1 h2
    rw [_log_scale, if_neg (not_le.mpr h1), if_pos h2]
  · rw [_log_scale, if_pos le_rfl]
  · rw [_log_scale, if_neg (by norm_num), if_pos (by norm_num)]
  · intro v mn mx h1 h2
    obtain ⟨heq, hpos, hlt⟩ := log_scale_interior v mn mx h1 h2
    refine ⟨?_, hpos, hlt⟩
    rw [_log_scale, if_neg (not_le.mpr h1), if_neg (not_le.mpr h2)]
  · intro v w mn mx h1 h2 h3
    exact log_scale_strict_mono v w mn mx h1 h2 h3

/-- Witness for C4 at concrete inputs: 5 is at-or-below the minimum, 20000 is
at-or-above the maximum, 5000 lies strictly inside, and 5000 < 6000 order is
preserved. -/
theorem log_scale_spec_C4_witness :
    _log_scale 5 20 10000 = 0 ∧ _log_scale 20000 20 10000 = 1 ∧
    (0 < _log_scale 5000 20 10000 ∧ _log_scale 5000 20 10000 < 1) ∧
    _log_scale 5000 20 10000 < _log_scale 6000 20 10000 :=
  ⟨log_scale_spec_C4.1 5 20 10000 (by norm_num),
   log_scale_spec_C4.2.1 20000 20 10000 (by norm_num) (by norm_num),
   ⟨(log_scale_spec_C4.2.2.2.2.1 5000 20 10000 (by norm_num) (by norm_num)).2.1,
    (log_scale_spec_C4.2.2.2.2.1 5000 20 10000 (by norm_num) (by norm_num)).2.2⟩,
   log_scale_spec_C4.2.2.2.2.2 5000 6000 20 10000 (by norm_num) (by norm_num)
     (by norm_num)⟩

/-- C10: for every record and tier name, the composite score computed by
`_calculate_score` under the tier's weight table lies in `[0, W]` where `W`
is the sum of the table's weights, and all three configured tables sum
to 1. -/
theorem composite_score_in_range :
    (∀ (r : Repo) (t : String),
      0 ≤ _calculate_score r (selectWeights t) ∧
      _calculate_score r (selectWeights t) ≤ weightSum (selectWeights t)) ∧
    weightSum ESTABLISHED_WEIGHTS = 1 ∧ weightSum RISING_WEIGHTS = 1 ∧
    weightSum NEW_WEIGHTS = 1 := by
  refine ⟨?_, ?_, ?_, ?_⟩
  · intro r t
    apply calculate_score_bounds <;>
      · unfold selectWeights
        split_ifs <;>
          norm_num [ESTABLISHED_WEIGHTS, RISING_WEIGHTS, NEW_WEIGHTS]
  · norm_num [weightSum, ESTABLISHED_WEIGHTS]
  · norm_num [weightSum, RISING_WEIGHTS]
  · norm_num [weightSum, NEW_WEIGHTS]

/-- C3: within every tier list, `_rank_tier` produces exactly the ranks
1..N in list order (hence each exactly once), with records in descending
`composite_score` order, equal-score records keeping their relative input
order (the filtered-by-score subsequence is unchanged up to the rank
annotation), and an empty tier yields `[]`. -/
theorem rank_tier_ranks_C3 :
    ∀ (repos : List Repo) (t : String),
      (_rank_tier repos t).length = repos.length ∧
      (_rank_tier repos t).map Repo.rank_in_tier =
        (List.range' 1 repos.length).map some ∧
      (_rank_tier repos t).Pairwise (fun a b => scoreD b ≤ scoreD a) ∧
      (∀ s : ℝ,
        ((_rank_tier repos t).filter (fun x => decide (scoreD x = s))).map stripRank =
          ((repos.map (setScore (selectWeights t))).filter
            (fun x => decide (scoreD x = s))).map stripRank) ∧
      _rank_tier [] t = [] := by
  intro repos t
  refine ⟨rank_tier_length repos t, ?_, ?_, ?_, rfl⟩
  · rw [rank_tier_eq, assignRanks_map_rank, sortDesc_length, List.length_map]
  · rw [rank_tier_eq]
    have h1 := sortDesc_pairwise (repos.map (setScore (selectWeights t)))
    have h2 : ((sortDesc (repos.map (setScore (selectWeights t)))).map scoreD).Pairwise
        (fun a b : ℝ => b ≤ a) := List.pairwise_map.mpr h1
    rw [← assignRanks_map_score 1] at h2
    exact List.pairwise_map.mp h2
  · intro s
    rw [rank_tier_eq,
      assignRanks_filter_strip (fun x => decide (scoreD x = s)) (fun y i => rfl) 1,
      filter_sortDesc]

/-- Counterexample to C5: handing `_rank_tier` the unrecognized tier name
"bogus" does not fail; the bare `else` branch silently selects the new-tier
weight table and ranking proceeds exactly as for tier "new". -/
theorem rank_tier_unknown_tier_no_error :
    _rank_tier [rEmpty] "bogus" = _rank_tier [rEmpty] "new" ∧
    selectWeights "bogus" = NEW_WEIGHTS :=
  ⟨rfl, rfl⟩

/-- C5 (amended): an unrecognized tier name is not rejected: any name other
than "established" and "rising" selects `NEW_WEIGHTS`, so `_rank_tier`
behaves exactly as for the "new" tier and never raises. -/
theorem rank_tier_unknown_tier_as_new :
    ∀ (repos : List Repo) (t : String), t ≠ "established" → t ≠ "rising" →
      _rank_tier repos t = _rank_tier repos "new" := by
  intro repos t h1 h2
  rw [rank_tier_eq, rank_tier_eq]
  have hsel : selectWeights t = NEW_WEIGHTS := by
    rw [selectWeights, if_neg h1, if_neg h2]
  rw [hsel]
  rfl

/-- Witness for the amended C5 at the concrete tier name "unknown". -/
theorem rank_tier_unknown_tier_as_new_witness :
    _rank_tier [rEmpty] "unknown" = _rank_tier [rEmpty] "new" :=
  rank_tier_unknown_tier_as_new [rEmpty] "unknown" (by decide) (by decide)

/-- C1: when every record carries `age_days`, `classify_and_rank` succeeds
and every output record's tier is exactly the one the age rule (`ruleTier`,
with the four growth signals) gives: under 90 days "new"; 90-364 days
"rising" when a growth signal holds and "established" otherwise; 365 days
and older "established". -/
theorem classify_assigns_age_rule_tier (repos : List Repo)
    (hok : ∀ r ∈ repos, (r.age_days).isSome) :
    ∃ e ri n, classify_and_rank repos = .ok (e, ri, n) ∧
      (∀ x ∈ e, x.tier = some "established" ∧
        ∃ a : Int, x.age_days = some a ∧ ruleTier x a = "established") ∧
      (∀ x ∈ ri, x.tier = some "rising" ∧
        ∃ a : Int, x.age_days = some a ∧ ruleTier x a = "rising") ∧
      (∀ x ∈ n, x.tier = some "new" ∧
        ∃ a : Int, x.age_days = some a ∧ ruleTier x a = "new") := by
  obtain ⟨E, R, N, hC, -⟩ := classifyTiers_ok_of_ages hok
  obtain ⟨hE, hR, hN⟩ := classifyTiers_spec hC
  refine ⟨_rank_tier E "established", _rank_tier R "rising", _rank_tier N "new",
    ?_, ?_, ?_, ?_⟩
  · unfold classify_and_rank
    rw [hC]
  · intro x hx
    obtain ⟨r, hrE, i, hxeq⟩ := rank_tier_mem_src hx
    obtain ⟨r₀, hr₀, a, hage, hre, hrule⟩ := hE r hrE
    subst hxeq
    subst hre
    exact ⟨rfl, a, hage, hrule⟩
  · intro x hx
    obtain ⟨r, hrR, i, hxeq⟩ := rank_tier_mem_src hx
    obtain ⟨r₀, hr₀, a, hage, hre, hrule⟩ := hR r hrR
    subst hxeq
    subst hre
    exact ⟨rfl, a, hage, hrule⟩
  · intro x hx
    obtain ⟨r, hrN, i, hxeq⟩ := rank_tier_mem_src hx
    obtain ⟨r₀, hr₀, a, hage, hre, hrule⟩ := hN r hrN
    subst hxeq
    subst hre
    exact ⟨rfl, a, hage, hrule⟩

/-- Witness for C1 at a concrete three-record input covering all three
tiers. -/
theorem classify_assigns_age_rule_tier_witness :
    ∃ e ri n, classify_and_rank [rNew, rRising, rEstablished] = .ok (e, ri, n) ∧
      (∀ x ∈ e, x.tier = some "established" ∧
        ∃ a : Int, x.age_days = some a ∧ ruleTier x a = "established") ∧
      (∀ x ∈ ri, x.tier = some "rising" ∧
        ∃ a : Int, x.age_days = some a ∧ ruleTier x a = "rising") ∧
      (∀ x ∈ n, x.tier = some "new" ∧
        ∃ a : Int, x.age_days = some a ∧ ruleTier x a = "new") :=
  classify_assigns_age_rule_tier [rNew, rRising, rEstablished] (by decide)

/-- C7: when every record carries `age_days`, `classify_and_rank` partitions
the input totally and exclusively: the three tier lists' lengths sum to the
input length and no record value occurs in two different lists. -/
theorem classify_partitions (repos : List Repo)
    (hok : ∀ r ∈ repos, (r.age_days).isSome) :
    ∃ e ri n, classify_and_rank repos = .ok (e, ri, n) ∧
      e.length + ri.length + n.length = repos.length ∧
      e.Disjoint ri ∧ e.Disjoint n ∧ ri.Disjoint n := by
  obtain ⟨E, R, N, hC, hlen⟩ := classifyTiers_ok_of_ages hok
  obtain ⟨hE, hR, hN⟩ := classifyTiers_spec hC
  have htE : ∀ x ∈ _rank_tier E "established", x.tier = some "established" := by
    intro x hx
    obtain ⟨r, hrE, i, hxeq⟩ := rank_tier_mem_src hx
    obtain ⟨r₀, -, -, -, hre, -⟩ := hE r hrE
    subst hxeq; subst hre; rfl
  have htR : ∀ x ∈ _rank_tier R "rising", x.tier = some "rising" := by
    intro x hx
    obtain ⟨r, hrR, i, hxeq⟩ := rank_tier_mem_src hx
    obtain ⟨r₀, -, -, -, hre, -⟩ := hR r hrR
    subst hxeq; subst hre; rfl
  have htN : ∀ x ∈ _rank_tier N "new", x.tier = some "new" := by
    intro x hx
    obtain ⟨r, hrN, i, hxeq⟩ := rank_tier_mem_src hx
    obtain ⟨r₀, -, -, -, hre, -⟩ := hN r hrN
    subst hxeq; subst hre; rfl
  refine ⟨_rank_tier E "established", _rank_tier R "rising", _rank_tier N "new",
    ?_, ?_, ?_, ?_, ?_⟩
  · unfold classify_and_rank
    rw [hC]
  · rw [rank_tier_length, rank_tier_length, rank_tier_length]; exact hlen
  · intro a ha hb
    have h1 := htE a ha
    have h2 := htR a hb
    rw [h1] at h2
    simp at h2
  · intro a ha hb
    have h1 := htE a ha
    have h2 := htN a hb
    rw [h1] at h2
    simp at h2
  · intro a ha hb
    have h1 := htR a ha
    have h2 := htN a hb
    rw [h1] at h2
    simp at h2

/-- Witness for C7 at a concrete two-record input. -/
theorem classify_partitions_witness :
    ∃ e ri n, classify_and_rank [rEstablished, rNew] = .ok (e, ri, n) ∧
      e.length + ri.length + n.length = ([rEstablished, rNew] : List Repo).length ∧
      e.Disjoint ri ∧ e.Disjoint n ∧ ri.Disjoint n :=
  classify_partitions [rEstablished, rNew] (by decide)

lemma forall₂_mem_right {α β : Type} {Q : α → β → Prop} :
    ∀ {l₁ : List α} {l₂ : List β}, List.Forall₂ Q l₁ l₂ →
      ∀ {x : β}, x ∈ l₂ → ∃ a ∈ l₁, Q a x := by
  intro l₁ l₂ h
  induction h with
  | nil => intro x hx; cases hx
  | cons hab hrest ih =>
    intro x hx
    rcases List.mem_cons.mp hx with rfl | hx'
    · exact ⟨_, List.mem_cons_self _ _, hab⟩
    · obtain ⟨a, ha, hQ⟩ := ih hx'
      exact ⟨a, List.mem_cons_of_mem _ ha, hQ⟩

lemma dedup_ok_char (repos : List Repo)
    (hok : ∀ r ∈ repos, r.owner.isSome ∧ r.name.isSome ∧ r.stars.isSome ∧
      r.platform.isSome) :
    ∃ out, _deduplicate_repos repos = .ok out ∧
      List.Forall₂ (fun k m =>
          keyD m = k ∧ IsFirstMax (repos.filter (fun r => keyD r == k)) m)
        ((repos.map keyD).dedup) out := by
  have hkeys : mapE dedupKey repos = .ok (repos.map keyD) :=
    mapE_congr_ok (fun r hr => dedupKey_eq_keyD (hok r hr).1 (hok r hr).2.1)
  unfold _deduplicate_repos
  rw [hkeys]
  apply mapE_ok_of_forall
  intro k hk
  obtain ⟨r0, hr0, hkey⟩ := List.mem_map.mp (List.mem_dedup.mp hk)
  have hgrp : (repos.filter (fun r => keyD r == k)) ≠ [] := by
    intro hnil
    have hr0f : r0 ∈ repos.filter (fun r => keyD r == k) :=
      List.mem_filter.mpr ⟨hr0, by simp [hkey]⟩
    rw [hnil] at hr0f
    cases hr0f
  obtain ⟨m, hm, hfm⟩ := pickBest_spec hgrp
    (fun x hx => (hok x (List.mem_of_mem_filter hx)).2.2.1)
    (fun x hx => (hok x (List.mem_of_mem_filter hx)).2.2.2)
  refine ⟨m, ?_, ?_, hfm⟩
  · rw [zip_filter_map_fst]
    exact hm
  · simpa using (List.mem_filter.mp hfm.mem).2

lemma forall₂_filter_unique {P : String → Repo → Prop} :
    ∀ {KS : List String} {out : List Repo}, KS.Nodup →
      List.Forall₂ (fun k m => keyD m = k ∧ P k m) KS out →
      ∀ k', (k' ∈ KS →
          ∃ m, out.filter (fun x => keyD x == k') = [m] ∧ P k' m) ∧
        (k' ∉ KS → out.filter (fun x => keyD x == k') = []) := by
  intro KS out hnd h
  revert hnd
  induction h with
  | nil =>
    intro _ k'
    exact ⟨fun hk => absurd hk (List.not_mem_nil k'), fun _ => rfl⟩
  | @cons k m KS' out' hkm hrest ih =>
    intro hnd k'
    have hk_notin : k ∉ KS' := (List.nodup_cons.mp hnd).1
    have hnd' : KS'.Nodup := (List.nodup_cons.mp hnd).2
    have hout'_keys : ∀ x ∈ out', keyD x ∈ KS' := by
      intro x hx
      obtain ⟨k₂, hk₂, hQ⟩ := forall₂_mem_right hrest hx
      rw [hQ.1]
      exact hk₂
    constructor
    · intro hk'
      rcases List.mem_cons.mp hk' with rfl | hk''
      · refine ⟨m, ?_, hkm.2⟩
        have hrestnil : out'.filter (fun x => keyD x == k') = [] := by
          apply List.filter_eq_nil_iff.mpr
          intro x hx
          have hxk := hout'_keys x hx
          simp only [beq_iff_eq]
          intro he
          rw [he] at hxk
          exact hk_notin hxk
        simp only [List.filter_cons]
        rw [if_pos (by simp [hkm.1]), hrestnil]
      · have hne : keyD m ≠ k' := by
          rw [hkm.1]
          intro he
          rw [he] at hk_notin
          exact hk_notin hk''
        simp only [List.filter_cons]
        rw [if_neg (by simpa using hne)]
        exact ((ih hnd') k').1 hk''
    · intro hk'
      have hne : keyD m ≠ k' := by
        rw [hkm.1]
        intro he
        exact hk' (he ▸ List.mem_cons_self k KS')
      simp only [List.filter_cons]
      rw [if_neg (by simpa using hne)]
      exact ((ih hnd') k').2 (fun hmem => hk' (List.mem_cons_of_mem _ hmem))

/-- C2: under the required dedup fields, `_deduplicate_repos` succeeds and,
for every normalized key, keeps exactly the first star-maximal member of
that key's group (an unmodified input record) and drops the rest; keys with
no group contribute nothing. -/
theorem dedup_keeps_first_max_per_key (repos : List Repo)
    (hok : ∀ r ∈ repos, r.owner.isSome ∧ r.name.isSome ∧ r.stars.isSome ∧
      r.platform.isSome) :
    ∃ out, _deduplicate_repos repos = .ok out ∧
      ∀ k : String,
        (repos.filter (fun r => keyD r == k) = [] →
          out.filter (fun x => keyD x == k) = []) ∧
        (repos.filter (fun r => keyD r == k) ≠ [] →
          ∃ m, out.filter (fun x => keyD x == k) = [m] ∧
            IsFirstMax (repos.filter (fun r => keyD r == k)) m) := by
  obtain ⟨out, hout, hchar⟩ := dedup_ok_char repos hok
  have hmain := forall₂_filter_unique (List.nodup_dedup (repos.map keyD)) hchar
  refine ⟨out, hout, ?_⟩
  intro k
  constructor
  · intro hempty
    apply (hmain k).2
    intro hk
    obtain ⟨r0, hr0, hkey⟩ := List.mem_map.mp (List.mem_dedup.mp hk)
    have hr0f : r0 ∈ repos.filter (fun r => keyD r == k) :=
      List.mem_filter.mpr ⟨hr0, by simp [hkey]⟩
    rw [hempty] at hr0f
    cases hr0f
  · intro hne
    apply (hmain k).1
    obtain ⟨r0, hr0⟩ := List.exists_mem_of_ne_nil _ hne
    have hr0' := List.mem_filter.mp hr0
    have hkey : keyD r0 = k := by simpa using hr0'.2
    exact List.mem_dedup.mpr (hkey ▸ List.mem_map_of_mem keyD hr0'.1)

/-- Witness for C2: the spec's own example, two records sharing a normalized
key with star counts 500 and 200. -/
theorem dedup_keeps_first_max_per_key_witness :
    ∃ out, _deduplicate_repos [rDupA, rDupB] = .ok out ∧
      ∀ k : String,
        (([rDupA, rDupB] : List Repo).filter (fun r => keyD r == k) = [] →
          out.filter (fun x => keyD x == k) = []) ∧
        (([rDupA, rDupB] : List Repo).filter (fun r => keyD r == k) ≠ [] →
          ∃ m, out.filter (fun x => keyD x == k) = [m] ∧
            IsFirstMax (([rDupA, rDupB] : List Repo).filter
              (fun r => keyD r == k)) m) :=
  dedup_keeps_first_max_per_key [rDupA, rDupB] (by decide)

lemma filter_key_eq_singleton :
    ∀ {l : List Repo}, (l.map keyD).Nodup → ∀ {a : Repo}, a ∈ l →
      l.filter (fun x => keyD x == keyD a) = [a] := by
  intro l
  induction l with
  | nil => intro _ a ha; cases ha
  | cons b bs ih =>
    intro hnd a ha
    have hnd2 : (keyD b :: bs.map keyD).Nodup := by rw [← List.map_cons]; exact hnd
    have hnd1 : keyD b ∉ bs.map keyD := (List.nodup_cons.mp hnd2).1
    have hnd' : (bs.map keyD).Nodup := (List.nodup_cons.mp hnd2).2
    rcases List.mem_cons.mp ha with rfl | ha'
    · simp only [List.filter_cons]
      rw [if_pos (by simp)]
      have hrest : bs.filter (fun x => keyD x == keyD a) = [] := by
        apply List.filter_eq_nil_iff.mpr
        intro x hx
        simp only [beq_iff_eq]
        intro he
        exact hnd1 (he ▸ List.mem_map_of_mem keyD hx)
      rw [hrest]
    · have hne : keyD b ≠ keyD a :=
        fun he => hnd1 (he ▸ List.mem_map_of_mem keyD ha')
      simp only [List.filter_cons]
      rw [if_neg (by simpa using hne)]
      exact ih hnd' ha'

lemma mapE_pick_map_keyD (full : List Repo) :
    ∀ (l : List Repo),
      (∀ r ∈ l, full.filter (fun x => keyD x == keyD r) = [r]) →
      mapE (fun k => pickBest
          (((full.zip (full.map keyD)).filter (fun p => p.2 == k)).map Prod.fst))
        (l.map keyD) = .ok l := by
  intro l
  induction l with
  | nil => intro _; rfl
  | cons a as ih =>
    intro h
    have ha := h a (List.mem_cons_self a as)
    have hpick : pickBest
        (((full.zip (full.map keyD)).filter (fun p => p.2 == keyD a)).map Prod.fst)
          = .ok a := by
      rw [zip_filter_map_fst, ha]
      rfl
    have hrest := ih (fun x hx => h x (List.mem_cons_of_mem _ hx))
    simp [mapE, hpick, hrest]

/-- C9: deduplication is idempotent: on an input whose records already have
pairwise distinct normalized keys (and carry `owner` and `name`),
`_deduplicate_repos` returns exactly the input list, same records in the
same order. -/
theorem dedup_idempotent (repos : List Repo)
    (hok : ∀ r ∈ repos, r.owner.isSome ∧ r.name.isSome)
    (hnd : (repos.map keyD).Nodup) :
    _deduplicate_repos repos = .ok repos := by
  have hkeys : mapE dedupKey repos = .ok (repos.map keyD) :=
    mapE_congr_ok (fun r hr => dedupKey_eq_keyD (hok r hr).1 (hok r hr).2)
  unfold _deduplicate_repos
  rw [hkeys]
  dsimp only
  have hdd : (repos.map keyD).dedup = repos.map keyD := List.Nodup.dedup hnd
  rw [hdd]
  exact mapE_pick_map_keyD repos repos (fun r hr => filter_key_eq_singleton hnd hr)

/-- Witness for C9 at a concrete already-deduplicated two-record input. -/
theorem dedup_idempotent_witness :
    _deduplicate_repos [rSolo, rSolo2] = .ok [rSolo, rSolo2] :=
  dedup_idempotent [rSolo, rSolo2] (by decide) (by decide)

lemma mergeSocial_ok_of_url {reddit_data : String → Option RedditEntry}
    {rss_data : String → Option RssEntry} {r : Repo} (h : r.repo_url.isSome) :
    ∃ r', mergeSocial reddit_data rss_data r = .ok r' := by
  obtain ⟨u, hu⟩ := Option.isSome_iff_exists.mp h
  unfold mergeSocial
  rw [hu]
  dsimp only
  cases hrd : reddit_data u <;> cases hrs : rss_data u <;> exact ⟨_, rfl⟩

lemma aggregate_ok_of_required (gh gl bb : List Repo)
    (reddit_data : String → Option RedditEntry)
    (rss_data : String → Option RssEntry)
    (hok : ∀ r ∈ gh ++ gl ++ bb, r.owner.isSome ∧ r.name.isSome ∧
      r.stars.isSome ∧ r.platform.isSome ∧ r.repo_url.isSome) :
    ∃ out, aggregate_data gh gl bb reddit_data rss_data = .ok out := by
  obtain ⟨dd, hdd, hchar⟩ := dedup_ok_char (gh ++ gl ++ bb)
    (fun r hr => ⟨(hok r hr).1, (hok r hr).2.1, (hok r hr).2.2.1, (hok r hr).2.2.2.1⟩)
  unfold aggregate_data
  rw [hdd]
  have hall : ∀ a ∈ dd, ∃ b, mergeSocial reddit_data rss_data a = .ok b ∧ True := by
    intro a ha
    obtain ⟨k, hk, hQ⟩ := forall₂_mem_right hchar ha
    have hain : a ∈ gh ++ gl ++ bb := List.mem_of_mem_filter hQ.2.mem
    obtain ⟨b, hb⟩ := mergeSocial_ok_of_url (r := a) (hok a hain).2.2.2.2
    exact ⟨b, hb, trivial⟩
  obtain ⟨out, hout, -⟩ := mapE_ok_of_forall hall
  exact ⟨out, hout⟩

/-- C8: whenever `aggregate_data` succeeds, every surviving record carries
all four social-signal fields (non-null), records whose `repo_url` misses a
social map get 0 for the corresponding fields, and a missing lookup is never
an error (the merge step only fails on a missing `repo_url` key). -/
theorem aggregate_social_defaults (gh gl bb : List Repo)
    (reddit_data : String → Option RedditEntry)
    (rss_data : String → Option RssEntry) (out : List Repo)
    (hres : aggregate_data gh gl bb reddit_data rss_data = .ok out) :
    ∀ r ∈ out, r.reddit_mentions.isSome ∧ r.reddit_upvotes.isSome ∧
      r.recent_mentions_30d.isSome ∧ r.web_mentions.isSome ∧
      ∀ u, r.repo_url = some u →
        (reddit_data u = none → r.reddit_mentions = some 0 ∧
          r.reddit_upvotes = some 0 ∧ r.recent_mentions_30d = some 0) ∧
        (rss_data u = none → r.web_mentions = some 0) := by
  intro r hr
  unfold aggregate_data at hres
  cases hdd : _deduplicate_repos (gh ++ gl ++ bb) with
  | error e => rw [hdd] at hres; cases hres
  | ok dd =>
    rw [hdd] at hres
    dsimp only at hres
    obtain ⟨a, ha, hma⟩ := mapE_ok_mem hres hr
    unfold mergeSocial at hma
    cases hurl : a.repo_url with
    | none => rw [hurl] at hma; cases hma
    | some u₀ =>
      rw [hurl] at hma
      dsimp only at hma
      cases hrd : reddit_data u₀ with
      | some e₁ =>
        rw [hrd] at hma
        cases hrs : rss_data u₀ with
        | some e₂ =>
          rw [hrs] at hma
          injection hma with h'
          subst h'
          refine ⟨rfl, rfl, rfl, rfl, ?_⟩
          intro u hu
          have huu : u₀ = u := by
            have h2 : some u₀ = some u := hu
            exact Option.some.inj h2
          subst huu
          constructor
          · intro habs; rw [hrd] at habs; cases habs
          · intro habs; rw [hrs] at habs; cases habs
        | none =>
          rw [hrs] at hma
          injection hma with h'
          subst h'
          refine ⟨rfl, rfl, rfl, rfl, ?_⟩
          intro u hu
          have huu : u₀ = u := by
            have h2 : some u₀ = some u := hu
            exact Option.some.inj h2
          subst huu
          constructor
          · intro habs; rw [hrd] at habs; cases habs
          · intro _; rfl
      | none =>
        rw [hrd] at hma
        cases hrs : rss_data u₀ with
        | some e₂ =>
          rw [hrs] at hma
          injection hma with h'
          subst h'
          refine ⟨rfl, rfl, rfl, rfl, ?_⟩
          intro u hu
          have huu : u₀ = u := by
            have h2 : some u₀ = some u := hu
            exact Option.some.inj h2
          subst huu
          constructor
          · intro _; exact ⟨rfl, rfl, rfl⟩
          · intro habs; rw [hrs] at habs; cases habs
        | none =>
          rw [hrs] at hma
          injection hma with h'
          subst h'
          refine ⟨rfl, rfl, rfl, rfl, ?_⟩
          intro u hu
          have huu : u₀ = u := by
            have h2 : some u₀ = some u := hu
            exact Option.some.inj h2
          subst huu
          exact ⟨fun _ => ⟨rfl, rfl, rfl⟩, fun _ => rfl⟩

/-- Witness for C8: one record aggregated against empty social maps gets all
four social fields defaulted to 0. -/
theorem aggregate_social_defaults_witness :
    rSoloAgg.reddit_mentions = some 0 ∧ rSoloAgg.reddit_upvotes = some 0 ∧
    rSoloAgg.recent_mentions_30d = some 0 ∧ rSoloAgg.web_mentions = some 0 := by
  have h := aggregate_social_defaults [rSolo] [] [] (fun _ => none)
    (fun _ => none) [rSoloAgg] rfl rSoloAgg (List.mem_cons_self _ _)
  have h4 := h.2.2.2.2 "us" rfl
  exact ⟨(h4.1 rfl).1, (h4.1 rfl).2.1, (h4.1 rfl).2.2, h4.2 rfl⟩

/-- Counterexample to C6: a record lacking `age_days` is not defaulted; the
classifier's raw `repo['age_days']` subscript raises KeyError and the whole
call aborts, so one malformed record does stop processing of the rest. -/
theorem classify_missing_age_raises :
    classify_and_rank [rNoAge, rNew] = .error "KeyError: age_days" := rfl

/-- C6 (amended): the metrics read via `.get` (growth and social signals,
and `stars` during scoring) default to 0 and never raise — aggregation
succeeds whenever every record carries `owner`, `name`, `stars`, `platform`
and `repo_url`, and classification+ranking succeeds whenever every record
carries `age_days`, even with all other fields absent — but the subscripted
fields are genuinely required: a record missing `age_days` makes
`classify_and_rank` raise KeyError for the whole run. -/
theorem missing_field_defaults_amended :
    (∀ (gh gl bb : List Repo) (reddit_data : String → Option RedditEntry)
        (rss_data : String → Option RssEntry),
      (∀ r ∈ gh ++ gl ++ bb, r.owner.isSome ∧ r.name.isSome ∧
        r.stars.isSome ∧ r.platform.isSome ∧ r.repo_url.isSome) →
      ∃ out, aggregate_data gh gl bb reddit_data rss_data = .ok out) ∧
    (∀ repos : List Repo, (∀ r ∈ repos, (r.age_days).isSome) →
      ∃ out, classify_and_rank repos = .ok out) ∧
    (∀ r : Repo, r.star_velocity_30d = none → r.recent_mentions_30d = none →
      r.web_mentions = none → r.recent_commits_count = none →
      hasGrowthSignals r = false) ∧
    (∀ (r : Repo) (rest : List Repo), r.age_days = none →
      classify_and_rank (r :: rest) = .error "KeyError: age_days") := by
  refine ⟨aggregate_ok_of_required, ?_, ?_, ?_⟩
  · intro repos h
    obtain ⟨E, R, N, hC, -⟩ := classifyTiers_ok_of_ages h
    refine ⟨(_rank_tier E "established", _rank_tier R "rising",
      _rank_tier N "new"), ?_⟩
    unfold classify_and_rank
    rw [hC]
  · intro r h1 h2 h3 h4
    simp [hasGrowthSignals, h1, h2, h3, h4, STAR_VELOCITY_THRESHOLD]
  · intro r rest h
    unfold classify_and_rank classifyTiers
    rw [h]

/-- Witness for the amended C6 at concrete inputs. -/
theorem missing_field_defaults_amended_witness :
    (∃ out, aggregate_data [rSolo2] [] [] (fun _ => none) (fun _ => none)
      = .ok out) ∧
    (∃ out, classify_and_rank [rNew] = .ok out) ∧
    hasGrowthSignals rEmpty = false ∧
    classify_and_rank (rNoAge :: []) = .error "KeyError: age_days" :=
  ⟨missing_field_defaults_amended.1 [rSolo2] [] [] (fun _ => none)
     (fun _ => none) (by decide),
   missing_field_defaults_amended.2.1 [rNew] (by decide),
   missing_field_defaults_amended.2.2.1 rEmpty rfl rfl rfl rfl,
   missing_field_defaults_amended.2.2.2 rNoAge [] rfl⟩
